import Mathlib

/-!
# Bitonic sort over MPI ranks (`bitonic_sort.c`)

A shallow embedding of the sorting core of `bitonic_sort.c`:
`Compare`, `Merge_split_lo`, `Merge_split_hi`, `Bitonic_sort_incr`,
`Bitonic_sort_decr` and `Bitonic_sort`.

Conventions of the embedding.

* A C `int` array is a `List Int`.  Every read and write goes through
  `rd` / `wr`, which return `none` outside the allocated cells, so a
  function that returns `some _` has stayed inside its buffers.
* Array cursors (`i`, `j`, `k`) are `Int`, as `local_n - 1` is `-1` for an
  empty shard.  They stay between `-1` and `local_n`, so no wrap-around.
* `local_n`, `my_rank`, `p`, `max_stage` are non-negative C `int`s and are
  `Nat` here.  The `unsigned` loop variables `p_count` and `and_bit` are
  shifted modulo `2 ^ 32`.
* `for` loops carry a fuel argument; the caller passes the exact trip count
  and the loop re-tests the source's condition on every iteration.
-/

namespace BitonicSort

/-! ## Buffers -/

/-- Array read `a[i]`; `none` when `i` is outside the array. -/
def rd (a : List Int) (i : Int) : Option Int :=
  if 0 ≤ i then a[i.toNat]? else none

/-- Array write `a[k] = v`; `none` when `k` is outside the array. -/
def wr (a : List Int) (k : Int) (v : Int) : Option (List Int) :=
  if 0 ≤ k ∧ k < (a.length : Int) then some (a.set k.toNat v) else none

/-- The call `memcpy(dst, src, n*sizeof(int))`: the first `n` cells of `dst` are
replaced by the first `n` cells of `src`. -/
def memcpy (dst src : List Int) (n : Nat) : Option (List Int) :=
  if n ≤ dst.length ∧ n ≤ src.length then some (src.take n ++ dst.drop n) else none

/-- The three arrays every rank owns (allocated in `main` with `local_n` cells each). -/
structure Bufs where
  local_A : List Int
  local_partner : List Int
  local_merge : List Int
deriving DecidableEq

/-! ## Merge_split_lo (lines 298-313) -/

/-- The loop `for (k = 0; k < local_n; k++)` of `Merge_split_lo`; returns `local_merge`. -/
def Merge_split_lo_loop (local_A local_partner : List Int) (local_n : Nat) :
    Nat → Int → Int → Int → List Int → Option (List Int)
  | 0, k, _, _, local_merge => if k < (local_n : Int) then none else some local_merge
  | fuel + 1, k, i, j, local_merge =>
    if k < (local_n : Int) then
      match rd local_A i, rd local_partner j with
      | some a, some b =>
        if a ≤ b then
          match wr local_merge k a with
          | some m => Merge_split_lo_loop local_A local_partner local_n fuel (k + 1) (i + 1) j m
          | none => none
        else
          match wr local_merge k b with
          | some m => Merge_split_lo_loop local_A local_partner local_n fuel (k + 1) i (j + 1) m
          | none => none
      | _, _ => none
    else some local_merge

/-- `Merge_split_lo(local_A, local_partner, local_merge, local_n, comm)`. -/
def Merge_split_lo (local_A local_partner local_merge : List Int) (local_n : Nat) :
    Option Bufs :=
  match Merge_split_lo_loop local_A local_partner local_n local_n 0 0 0 local_merge with
  | none => none
  | some m =>
    match memcpy local_A m local_n with
    | none => none
    | some a => some ⟨a, local_partner, m⟩

/-! ## Merge_split_hi (lines 321-337) -/

/-- The loop `for (k = local_n-1; k > 0; k--)` of `Merge_split_hi`.  On the branch
`local_A[i] >= local_partner[j]` the source stores `local_A[j]`. -/
def Merge_split_hi_loop (local_A local_partner : List Int) :
    Nat → Int → Int → Int → List Int → Option (List Int)
  | 0, k, _, _, local_merge => if k > 0 then none else some local_merge
  | fuel + 1, k, i, j, local_merge =>
    if k > 0 then
      match rd local_A i, rd local_partner j with
      | some a, some b =>
        if a ≥ b then
          match rd local_A j with
          | some v =>
            match wr local_merge k v with
            | some m => Merge_split_hi_loop local_A local_partner fuel (k - 1) (i - 1) j m
            | none => none
          | none => none
        else
          match wr local_merge k b with
          | some m => Merge_split_hi_loop local_A local_partner fuel (k - 1) i (j - 1) m
          | none => none
      | _, _ => none
    else some local_merge

/-- `Merge_split_hi(local_A, local_partner, local_merge, local_n, comm)`. -/
def Merge_split_hi (local_A local_partner local_merge : List Int) (local_n : Nat) :
    Option Bufs :=
  match Merge_split_hi_loop local_A local_partner local_n
      ((local_n : Int) - 1) ((local_n : Int) - 1) ((local_n : Int) - 1) local_merge with
  | none => none
  | some m =>
    match memcpy local_A m local_n with
    | none => none
    | some a => some ⟨a, local_partner, m⟩

/-! ## Compare and the local sort (lines 189-198, 208) -/

/-- `Compare(a_p, b_p)` on the two pointed-to `int`s. -/
def Compare (a b : Int) : Int :=
  if a < b then -1
  else if a = b then 0
  else 1

/-- The C library's `qsort(base, nmemb, sizeof(int), compar)`, taken by its ISO C contract:
the first `nmemb` cells are put in ascending order according to `compar`
(`x` may precede `y` when `compar x y <= 0`). -/
def qsort (base : List Int) (nmemb : Nat) (compar : Int → Int → Int) : Option (List Int) :=
  if nmemb ≤ base.length then
    some ((base.take nmemb).insertionSort (fun x y => compar x y ≤ 0) ++ base.drop nmemb)
  else none

/-! ## Control flow of one rank

None of the loops of `Bitonic_sort`, `Bitonic_sort_incr` and `Bitonic_sort_decr`
tests array contents: the loop variables depend on `my_rank`, `p` and `max_stage`
only.  Each of these functions is therefore embedded as the sequence of loop
iterations it performs, every iteration recording its loop variables and the
branch taken; the effect of one iteration on the arrays is `stage_body` below. -/

/-- Which merge a stage calls: `Merge_split_lo` or `Merge_split_hi`. -/
inductive Role where
  | lo
  | hi
deriving DecidableEq

/-- Which phase a dimension calls: `Bitonic_sort_incr` or `Bitonic_sort_decr`. -/
inductive Phase where
  | incr
  | decr
deriving DecidableEq

/-- One iteration of the stage loop: the loop variables, the rank handed to
`MPI_Sendrecv`, and the merge called afterwards. -/
structure Stage where
  stage : Nat
  eor_bit : Nat
  partner : Nat
  role : Role
deriving DecidableEq

/-- The loop `for (stage = 0; stage < max_stage; stage++)` of `Bitonic_sort_incr`
(lines 236-245): `my_rank < partner` selects `Merge_split_lo`. -/
def Bitonic_sort_incr_loop (max_stage my_rank : Nat) : Nat → Nat → Nat → Option (List Stage)
  | 0, stage, _ => if stage < max_stage then none else some []
  | fuel + 1, stage, eor_bit =>
    if stage < max_stage then
      let partner := my_rank ^^^ eor_bit
      let role := if my_rank < partner then Role.lo else Role.hi
      match Bitonic_sort_incr_loop max_stage my_rank fuel (stage + 1) (eor_bit >>> 1) with
      | some rest => some (⟨stage, eor_bit, partner, role⟩ :: rest)
      | none => none
    else some []

/-- `Bitonic_sort_incr`.  `1 << (max_stage - 1)` is an `int` shift, defined for
`0 <= max_stage - 1 <= 30`; `my_rank ^ eor_bit` then stays below `2^31` and is stored in
the `int partner` unchanged.  The `tmp` block allocated and freed on rank 0 is never used. -/
def Bitonic_sort_incr (max_stage my_rank : Nat) : Option (List Stage) :=
  if 1 ≤ max_stage ∧ max_stage ≤ 31 then
    Bitonic_sort_incr_loop max_stage my_rank max_stage 0 (1 <<< (max_stage - 1))
  else none

/-- The loop `for (stage = 0; stage < max_stage; stage++)` of `Bitonic_sort_decr`
(lines 266-274): `my_rank > partner` selects `Merge_split_lo`. -/
def Bitonic_sort_decr_loop (max_stage my_rank : Nat) : Nat → Nat → Nat → Option (List Stage)
  | 0, stage, _ => if stage < max_stage then none else some []
  | fuel + 1, stage, eor_bit =>
    if stage < max_stage then
      let partner := my_rank ^^^ eor_bit
      let role := if my_rank > partner then Role.lo else Role.hi
      match Bitonic_sort_decr_loop max_stage my_rank fuel (stage + 1) (eor_bit >>> 1) with
      | some rest => some (⟨stage, eor_bit, partner, role⟩ :: rest)
      | none => none
    else some []

/-- `Bitonic_sort_decr`, with the same initial `eor_bit` as `Bitonic_sort_incr`. -/
def Bitonic_sort_decr (max_stage my_rank : Nat) : Option (List Stage) :=
  if 1 ≤ max_stage ∧ max_stage ≤ 31 then
    Bitonic_sort_decr_loop max_stage my_rank max_stage 0 (1 <<< (max_stage - 1))
  else none

/-- One iteration of the dimension loop of `Bitonic_sort`: the loop variables, the
phase chosen by `(my_rank & and_bit) == 0`, and the stages the phase performs. -/
structure Dimension where
  p_count : Nat
  and_bit : Nat
  max_stage : Nat
  phase : Phase
  stages : List Stage
deriving DecidableEq

/-- The loop `for (p_count = 2, and_bit = 2, max_stage = 1; p_count <= p;
p_count <<= 1, and_bit <<= 1, max_stage++)` of `Bitonic_sort` (lines 212-217). -/
def Bitonic_sort_loop (my_rank p : Nat) : Nat → Nat → Nat → Nat → Option (List Dimension)
  | 0, p_count, _, _ => if p_count ≤ p then none else some []
  | fuel + 1, p_count, and_bit, max_stage =>
    if p_count ≤ p then
      let phase := if my_rank &&& and_bit = 0 then Phase.incr else Phase.decr
      let called :=
        match phase with
        | Phase.incr => Bitonic_sort_incr max_stage my_rank
        | Phase.decr => Bitonic_sort_decr max_stage my_rank
      match called with
      | none => none
      | some stages =>
        match Bitonic_sort_loop my_rank p fuel
            ((p_count <<< 1) % 2 ^ 32) ((and_bit <<< 1) % 2 ^ 32) (max_stage + 1) with
        | none => none
        | some rest => some (⟨p_count, and_bit, max_stage, phase, stages⟩ :: rest)
    else some []

/-- The dimensions `Bitonic_sort` goes through on rank `my_rank` of `p`, after its
`qsort` call.  The conversions of `p` and `my_rank` to `unsigned` in `p_count <= p` and
`my_rank & and_bit` leave a non-negative `int` unchanged.  An `unsigned` doubled 32 times
is 0, after which `p_count <= p` holds for good: 32 iterations are enough whenever the
source loop ends. -/
def Bitonic_sort (my_rank p : Nat) : Option (List Dimension) :=
  Bitonic_sort_loop my_rank p 32 2 2 1

/-! ## All ranks in lockstep -/

/-- The call `MPI_Sendrecv(local_A, local_n, MPI_INT, partner, 0, local_partner, local_n,
MPI_INT, partner, 0, comm, MPI_STATUS_IGNORE)` on a rank whose arrays are `b`: the first
`local_n` cells of `local_partner` receive the shard `partner` held when the stage began
(`world` is the state of all ranks at that moment). -/
def MPI_Sendrecv (world : List Bufs) (local_n partner : Nat) (b : Bufs) : Option Bufs :=
  match world[partner]? with
  | none => none
  | some q =>
    match memcpy b.local_partner q.local_A local_n with
    | none => none
    | some received => some { b with local_partner := received }

/-- The body of the stage loop (lines 237-243 and 267-273) on one rank. -/
def stage_body (world : List Bufs) (local_n : Nat) (st : Stage) (b : Bufs) : Option Bufs :=
  match MPI_Sendrecv world local_n st.partner b with
  | none => none
  | some b1 =>
    match st.role with
    | Role.lo => Merge_split_lo b1.local_A b1.local_partner b1.local_merge local_n
    | Role.hi => Merge_split_hi b1.local_A b1.local_partner b1.local_merge local_n

/-- One stage on the ranks `r, r+1, ...` (arrays `bs`, stages `sts`).  A send-receive
completes only when the partner addresses this rank in the same round; otherwise
the pair blocks and the result is `none`. -/
def lockstep_ranks (local_n : Nat) (world : List Bufs) (steps : List Stage) :
    Nat → List Bufs → List Stage → Option (List Bufs)
  | _, [], [] => some []
  | r, b :: bs, st :: sts =>
    match steps[st.partner]? with
    | none => none
    | some qst =>
      if qst.partner = r then
        match stage_body world local_n st b,
            lockstep_ranks local_n world steps (r + 1) bs sts with
        | some b1, some rest => some (b1 :: rest)
        | _, _ => none
      else none
  | _, _, _ => none

/-- Applies `f` to every element of a list; `none` as soon as one application is `none`. -/
def each {α β : Type} (f : α → Option β) : List α → Option (List β)
  | [] => some []
  | x :: xs =>
    match f x, each f xs with
    | some y, some ys => some (y :: ys)
    | _, _ => none

/-- Runs the rounds one after the other; `rounds` lists, for every round, the stage of
every rank. -/
def lockstep (local_n : Nat) : List (List Stage) → List Bufs → Option (List Bufs)
  | [], world => some world
  | steps :: rest, world =>
    match lockstep_ranks local_n world steps 0 world steps with
    | none => none
    | some w => lockstep local_n rest w

/-- The stages of all ranks, round by round: round `t` holds the `t`-th stage of every
rank.  `none` when the ranks do not perform the same number of stages. -/
def rounds (scheds : List (List Stage)) : Option (List (List Stage)) :=
  if scheds.all (fun s => s.length = (scheds.headD []).length) then
    each (fun t => each (fun s => s[t]?) scheds) (List.range (scheds.headD []).length)
  else none

/-- The `qsort` call of line 208 on one rank. -/
def local_sort (local_n : Nat) (b : Bufs) : Option Bufs :=
  match qsort b.local_A local_n Compare with
  | none => none
  | some a => some { b with local_A := a }

/-- Every rank `0 .. p-1` runs `Bitonic_sort` up to and including dimension `dims`
(`world[r]` holds the arrays of rank `r`). -/
def Bitonic_sort_dims (p local_n dims : Nat) (world : List Bufs) : Option (List Bufs) :=
  if world.length = p then
    match each (local_sort local_n) world,
        each (fun r => Bitonic_sort r p) (List.range p) with
    | some sorted, some ds =>
      match rounds (ds.map fun d => ((d.take dims).map Dimension.stages).flatten) with
      | none => none
      | some rs => lockstep local_n rs sorted
    | _, _ => none
  else none

/-- Every rank `0 .. p-1` runs `Bitonic_sort` to its end. -/
def Bitonic_sort_all (p local_n : Nat) (world : List Bufs) : Option (List Bufs) :=
  if world.length = p then
    match each (local_sort local_n) world,
        each (fun r => Bitonic_sort r p) (List.range p) with
    | some sorted, some ds =>
      match rounds (ds.map fun d => (d.map Dimension.stages).flatten) with
      | none => none
      | some rs => lockstep local_n rs sorted
    | _, _ => none
  else none

/-- The global sequence: the shards concatenated by ascending rank. -/
def global_sequence (world : List Bufs) : List Int :=
  (world.map Bufs.local_A).flatten

/-! ## Reading the exchange pattern -/

/-- The iteration of the dimension loop of rank `r` of `p` that has `max_stage = d`
(the `d`-th one, `d >= 1`). -/
def dimension_of (r p d : Nat) : Option Dimension :=
  match Bitonic_sort r p with
  | none => none
  | some dims => dims[d - 1]?

/-- The iteration `stage = s` of the stage loop in dimension `d` on rank `r` of `p`. -/
def stage_of (r p d s : Nat) : Option Stage :=
  match dimension_of r p d with
  | none => none
  | some dim => dim.stages[s]?

/-! ## Closed forms of the stage and dimension loops -/

/-- The stages `Bitonic_sort_incr` performs, in closed form. -/
def incr_stages (d r : Nat) : List Stage :=
  (List.range d).map fun t =>
    ⟨t, 2 ^ (d - 1 - t), r ^^^ 2 ^ (d - 1 - t),
      if r < r ^^^ 2 ^ (d - 1 - t) then Role.lo else Role.hi⟩

/-- The stages `Bitonic_sort_decr` performs, in closed form. -/
def decr_stages (d r : Nat) : List Stage :=
  (List.range d).map fun t =>
    ⟨t, 2 ^ (d - 1 - t), r ^^^ 2 ^ (d - 1 - t),
      if r > r ^^^ 2 ^ (d - 1 - t) then Role.lo else Role.hi⟩

/-- The dimension with index `t` (counted from 0) on rank `r`, in closed form. -/
def dimension_at (r t : Nat) : Dimension :=
  ⟨2 ^ (t + 1), 2 ^ (t + 1), t + 1,
    if r &&& 2 ^ (t + 1) = 0 then Phase.incr else Phase.decr,
    if r &&& 2 ^ (t + 1) = 0 then incr_stages (t + 1) r else decr_stages (t + 1) r⟩

/-- The stage with index `s` of the dimension with `max_stage = d` on rank `r`, in closed
form. -/
def stage_at (r d s : Nat) : Stage :=
  if r &&& 2 ^ d = 0 then
    ⟨s, 2 ^ (d - 1 - s), r ^^^ 2 ^ (d - 1 - s),
      if r < r ^^^ 2 ^ (d - 1 - s) then Role.lo else Role.hi⟩
  else
    ⟨s, 2 ^ (d - 1 - s), r ^^^ 2 ^ (d - 1 - s),
      if r > r ^^^ 2 ^ (d - 1 - s) then Role.lo else Role.hi⟩

/-! ## Merging as a list function -/

/-- The first `c` elements of the merge of two lists, the heads compared as in
`Merge_split_lo` (the first list wins ties). -/
def take_merge : Nat → List Int → List Int → List Int
  | 0, _, _ => []
  | _ + 1, [], _ => []
  | _ + 1, _ :: _, [] => []
  | c + 1, a :: as, b :: bs =>
    if a ≤ b then a :: take_merge c as (b :: bs) else b :: take_merge c (a :: as) bs

/-! ## Closed forms: proofs -/

theorem shiftRight_swap (e a : Nat) : e >>> 1 >>> a = e >>> a >>> 1 := by
  rw [← Nat.shiftRight_add, ← Nat.shiftRight_add, Nat.add_comm]

theorem incr_loop_closed (max_stage r : Nat) : ∀ (fuel stage e : Nat), stage + fuel = max_stage →
    Bitonic_sort_incr_loop max_stage r fuel stage e = some ((List.range fuel).map fun t =>
      (⟨stage + t, e >>> t, r ^^^ (e >>> t),
        if r < r ^^^ (e >>> t) then Role.lo else Role.hi⟩ : Stage)) := by
  intro fuel
  induction fuel with
  | zero =>
    intro stage e h
    simp [Bitonic_sort_incr_loop]
    omega
  | succ n ih =>
    intro stage e h
    have hlt : stage < max_stage := by omega
    simp only [Bitonic_sort_incr_loop, if_pos hlt]
    rw [ih (stage + 1) (e >>> 1) (by omega)]
    simp only [List.range_succ_eq_map, List.map_cons, List.map_map]
    simp [Function.comp_def, Nat.shiftRight_add, shiftRight_swap, Nat.add_comm, Nat.add_left_comm,
      Nat.add_assoc]

theorem decr_loop_closed (max_stage r : Nat) : ∀ (fuel stage e : Nat), stage + fuel = max_stage →
    Bitonic_sort_decr_loop max_stage r fuel stage e = some ((List.range fuel).map fun t =>
      (⟨stage + t, e >>> t, r ^^^ (e >>> t),
        if r > r ^^^ (e >>> t) then Role.lo else Role.hi⟩ : Stage)) := by
  intro fuel
  induction fuel with
  | zero =>
    intro stage e h
    simp [Bitonic_sort_decr_loop]
    omega
  | succ n ih =>
    intro stage e h
    have hlt : stage < max_stage := by omega
    simp only [Bitonic_sort_decr_loop, if_pos hlt]
    rw [ih (stage + 1) (e >>> 1) (by omega)]
    simp only [List.range_succ_eq_map, List.map_cons, List.map_map]
    simp [Function.comp_def, Nat.shiftRight_add, shiftRight_swap, Nat.add_comm, Nat.add_left_comm,
      Nat.add_assoc]

theorem initial_mask_shift (d t : Nat) (h : t < d) : (1 <<< (d - 1)) >>> t = 2 ^ (d - 1 - t) := by
  rw [Nat.one_shiftLeft, Nat.shiftRight_eq_div_pow, Nat.pow_div (by omega) (by norm_num)]

theorem Bitonic_sort_incr_closed (d r : Nat) (h1 : 1 ≤ d) (h31 : d ≤ 31) :
    Bitonic_sort_incr d r = some (incr_stages d r) := by
  unfold Bitonic_sort_incr incr_stages
  rw [if_pos ⟨h1, h31⟩, incr_loop_closed d r d 0 _ (by omega)]
  congr 1
  apply List.map_congr_left
  intro t ht
  rw [List.mem_range] at ht
  simp [initial_mask_shift d t ht]

theorem Bitonic_sort_decr_closed (d r : Nat) (h1 : 1 ≤ d) (h31 : d ≤ 31) :
    Bitonic_sort_decr d r = some (decr_stages d r) := by
  unfold Bitonic_sort_decr decr_stages
  rw [if_pos ⟨h1, h31⟩, decr_loop_closed d r d 0 _ (by omega)]
  congr 1
  apply List.map_congr_left
  intro t ht
  rw [List.mem_range] at ht
  simp [initial_mask_shift d t ht]

theorem unsigned_double (t : Nat) (h : t + 2 < 32) : (2 ^ (t + 1) <<< 1) % 2 ^ 32 = 2 ^ (t + 2) := by
  rw [Nat.shiftLeft_eq, ← Nat.pow_succ]
  exact Nat.mod_eq_of_lt (Nat.pow_lt_pow_right (by norm_num) h)

theorem Bitonic_sort_loop_closed (r D : Nat) (hD : D ≤ 30) :
    ∀ (n fuel t : Nat), t + n = D → n ≤ fuel →
      Bitonic_sort_loop r (2 ^ D) fuel (2 ^ (t + 1)) (2 ^ (t + 1)) (t + 1)
        = some ((List.range n).map fun s => dimension_at r (t + s)) := by
  intro n
  induction n with
  | zero =>
    intro fuel t ht _
    have hgt : ¬ (2 ^ (t + 1) ≤ 2 ^ D) := by
      rw [Nat.pow_le_pow_iff_right (by norm_num)]
      omega
    cases fuel <;> simp [Bitonic_sort_loop, hgt]
  | succ n ih =>
    intro fuel t ht hfuel
    obtain ⟨f, rfl⟩ : ∃ f, fuel = f + 1 := ⟨fuel - 1, by omega⟩
    have hle : 2 ^ (t + 1) ≤ 2 ^ D := Nat.pow_le_pow_right (by norm_num) (by omega)
    simp only [Bitonic_sort_loop, if_pos hle]
    rw [unsigned_double t (by omega), ih f (t + 1) (by omega) (by omega)]
    by_cases hbit : r &&& 2 ^ (t + 1) = 0
    · simp only [hbit, if_true, Bitonic_sort_incr_closed (t + 1) r (by omega) (by omega)]
      simp [List.range_succ_eq_map, dimension_at, hbit, Function.comp_def, Nat.add_comm,
        Nat.add_left_comm, Nat.add_assoc]
    · simp only [hbit, if_false, Bitonic_sort_decr_closed (t + 1) r (by omega) (by omega)]
      simp [List.range_succ_eq_map, dimension_at, hbit, Function.comp_def, Nat.add_comm,
        Nat.add_left_comm, Nat.add_assoc]

theorem Bitonic_sort_closed (r D : Nat) (hD : D ≤ 30) :
    Bitonic_sort r (2 ^ D) = some ((List.range D).map (dimension_at r)) := by
  have h := Bitonic_sort_loop_closed r D hD D 32 0 (by omega) (by omega)
  simpa [Bitonic_sort] using h

theorem dimension_of_closed (r D d : Nat) (hD : D ≤ 30) (h1 : 1 ≤ d) (hd : d ≤ D) :
    dimension_of r (2 ^ D) d = some (dimension_at r (d - 1)) := by
  have hlt : d - 1 < D := by omega
  simp [dimension_of, Bitonic_sort_closed r D hD, List.getElem?_map, List.getElem?_range hlt]

theorem stages_dimension_at (r d : Nat) (h1 : 1 ≤ d) :
    (dimension_at r (d - 1)).stages = (List.range d).map (stage_at r d) := by
  have hd1 : d - 1 + 1 = d := by omega
  simp only [dimension_at, hd1]
  by_cases hbit : r &&& 2 ^ d = 0
  · simp only [hbit, if_true, incr_stages]
    exact List.map_congr_left fun t _ => by simp [stage_at, hbit]
  · simp only [hbit, if_false, decr_stages]
    exact List.map_congr_left fun t _ => by simp [stage_at, hbit]

theorem stage_of_closed (r D d s : Nat) (hD : D ≤ 30) (h1 : 1 ≤ d) (hd : d ≤ D) (hs : s < d) :
    stage_of r (2 ^ D) d s = some (stage_at r d s) := by
  simp [stage_of, dimension_of_closed r D d hD h1 hd, stages_dimension_at r d h1,
    List.getElem?_range hs]

theorem stage_at_stage (r d s : Nat) : (stage_at r d s).stage = s := by
  unfold stage_at
  split <;> rfl

theorem stage_at_eor_bit (r d s : Nat) : (stage_at r d s).eor_bit = 2 ^ (d - 1 - s) := by
  unfold stage_at
  split <;> rfl

theorem stage_at_partner (r d s : Nat) : (stage_at r d s).partner = r ^^^ 2 ^ (d - 1 - s) := by
  unfold stage_at
  split <;> rfl

/-! ## Bit arithmetic of ranks -/

theorem and_two_pow_eq_zero (x d : Nat) : x &&& 2 ^ d = 0 ↔ x.testBit d = false := by
  constructor
  · intro h
    have := congrArg (fun y => Nat.testBit y d) h
    simpa [Nat.testBit_and, Nat.testBit_two_pow_self] using this
  · intro h
    apply Nat.eq_of_testBit_eq
    intro i
    by_cases hi : d = i
    · subst hi
      simp [Nat.testBit_and, h]
    · simp [Nat.testBit_and, Nat.testBit_two_pow_of_ne hi]

theorem xor_mask_lt (r s D : Nat) (hr : r < 2 ^ D) (hs : s < D) : r ^^^ 2 ^ s < 2 ^ D :=
  Nat.xor_lt_two_pow hr (Nat.pow_lt_pow_right (by norm_num) hs)

theorem xor_mask_ne (r s : Nat) : r ^^^ 2 ^ s ≠ r := by
  intro h
  have h2 : r ^^^ (r ^^^ 2 ^ s) = 2 ^ s := Nat.xor_cancel_left r (2 ^ s)
  rw [h, Nat.xor_self] at h2
  exact absurd h2.symm (by positivity)

theorem xor_mask_block (r s d : Nat) (hs : s < d) : (r ^^^ 2 ^ s) / 2 ^ d = r / 2 ^ d := by
  rw [← Nat.shiftRight_eq_div_pow, ← Nat.shiftRight_eq_div_pow]
  apply Nat.eq_of_testBit_eq
  intro i
  have hne : s ≠ d + i := by omega
  simp [Nat.testBit_shiftRight, Nat.testBit_xor, Nat.testBit_two_pow_of_ne hne]

theorem xor_mask_phase (r s d : Nat) (hs : s < d) :
    (r ^^^ 2 ^ s) &&& 2 ^ d = 0 ↔ r &&& 2 ^ d = 0 := by
  have hne : s ≠ d := by omega
  rw [and_two_pow_eq_zero, and_two_pow_eq_zero]
  simp [Nat.testBit_xor, Nat.testBit_two_pow_of_ne hne]

/-! ## The exchange pattern -/

/-- C8: for `1 <= max_stage = d <= 31` (so that `1 << (d-1)` is a valid `int` shift),
`Bitonic_sort_incr` and `Bitonic_sort_decr` each perform exactly `d` stages, numbered
`0 .. d-1`, whose XOR masks are in order `2^(d-1), 2^(d-2), ..., 2, 1`, every partner being
`my_rank XOR mask`. -/
theorem stage_masks_descend (d r : Nat) (h1 : 1 ≤ d) (h31 : d ≤ 31) :
    (∃ stages, Bitonic_sort_incr d r = some stages ∧ stages.length = d ∧
      stages.map Stage.stage = List.range d ∧
      stages.map Stage.eor_bit = (List.range d).map (fun t => 2 ^ (d - 1 - t)) ∧
      ∀ st ∈ stages, st.partner = r ^^^ st.eor_bit) ∧
    (∃ stages, Bitonic_sort_decr d r = some stages ∧ stages.length = d ∧
      stages.map Stage.stage = List.range d ∧
      stages.map Stage.eor_bit = (List.range d).map (fun t => 2 ^ (d - 1 - t)) ∧
      ∀ st ∈ stages, st.partner = r ^^^ st.eor_bit) := by
  constructor
  · refine ⟨incr_stages d r, Bitonic_sort_incr_closed d r h1 h31, ?_, ?_, ?_, ?_⟩
    · simp [incr_stages]
    · simp [incr_stages, Function.comp_def]
    · simp [incr_stages, Function.comp_def]
    · intro st hst
      simp only [incr_stages, List.mem_map] at hst
      obtain ⟨t, _, rfl⟩ := hst
      rfl
  · refine ⟨decr_stages d r, Bitonic_sort_decr_closed d r h1 h31, ?_, ?_, ?_, ?_⟩
    · simp [decr_stages]
    · simp [decr_stages, Function.comp_def]
    · simp [decr_stages, Function.comp_def]
    · intro st hst
      simp only [decr_stages, List.mem_map] at hst
      obtain ⟨t, _, rfl⟩ := hst
      rfl

theorem stage_masks_descend_witness :
    (∃ stages, Bitonic_sort_incr 3 5 = some stages ∧ stages.length = 3 ∧
      stages.map Stage.stage = List.range 3 ∧
      stages.map Stage.eor_bit = (List.range 3).map (fun t => 2 ^ (3 - 1 - t)) ∧
      ∀ st ∈ stages, st.partner = 5 ^^^ st.eor_bit) ∧
    (∃ stages, Bitonic_sort_decr 3 5 = some stages ∧ stages.length = 3 ∧
      stages.map Stage.stage = List.range 3 ∧
      stages.map Stage.eor_bit = (List.range 3).map (fun t => 2 ^ (3 - 1 - t)) ∧
      ∀ st ∈ stages, st.partner = 5 ^^^ st.eor_bit) :=
  stage_masks_descend 3 5 (by decide) (by decide)

/-- C9: for `P = 2^D` with `D <= 30` (`P` fits an `int`) and a rank `r < P`, the dimension
loop of `Bitonic_sort` ends after exactly `D` iterations; the iterations have
`max_stage = 1, 2, ..., D` in this order with `and_bit = 1 << max_stage`; an iteration
calls `Bitonic_sort_incr` exactly when `(r & (1 << max_stage)) == 0` and
`Bitonic_sort_decr` otherwise. -/
theorem dimension_loop_trace (D r : Nat) (hD : D ≤ 30) (hr : r < 2 ^ D) :
    ∃ dims, Bitonic_sort r (2 ^ D) = some dims ∧ dims.length = D ∧
      dims.map (fun dim => (dim.max_stage, dim.and_bit))
        = (List.range D).map (fun t => (t + 1, 1 <<< (t + 1))) ∧
      ∀ dim ∈ dims,
        (dim.phase = Phase.incr ↔ r &&& (1 <<< dim.max_stage) = 0) ∧
        (dim.phase = Phase.decr ↔ r &&& (1 <<< dim.max_stage) ≠ 0) ∧
        (dim.phase = Phase.incr → Bitonic_sort_incr dim.max_stage r = some dim.stages) ∧
        (dim.phase = Phase.decr → Bitonic_sort_decr dim.max_stage r = some dim.stages) := by
  have _hrank := hr
  refine ⟨_, Bitonic_sort_closed r D hD, by simp, ?_, ?_⟩
  · simp [dimension_at, Function.comp_def, Nat.one_shiftLeft]
  · intro dim hdim
    simp only [List.mem_map, List.mem_range] at hdim
    obtain ⟨t, ht, rfl⟩ := hdim
    have hi := Bitonic_sort_incr_closed (t + 1) r (by omega) (by omega)
    have hdc := Bitonic_sort_decr_closed (t + 1) r (by omega) (by omega)
    by_cases hbit : r &&& 2 ^ (t + 1) = 0
    · simp [dimension_at, hbit, Nat.one_shiftLeft, hi]
    · simp [dimension_at, hbit, Nat.one_shiftLeft, hdc]

theorem dimension_loop_trace_witness :
    (5 : Nat) < 2 ^ 3 ∧
    ∃ dims, Bitonic_sort 5 (2 ^ 3) = some dims ∧ dims.length = 3 ∧
      dims.map (fun dim => (dim.max_stage, dim.and_bit))
        = (List.range 3).map (fun t => (t + 1, 1 <<< (t + 1))) ∧
      ∀ dim ∈ dims,
        (dim.phase = Phase.incr ↔ 5 &&& (1 <<< dim.max_stage) = 0) ∧
        (dim.phase = Phase.decr ↔ 5 &&& (1 <<< dim.max_stage) ≠ 0) ∧
        (dim.phase = Phase.incr → Bitonic_sort_incr dim.max_stage 5 = some dim.stages) ∧
        (dim.phase = Phase.decr → Bitonic_sort_decr dim.max_stage 5 = some dim.stages) :=
  ⟨by decide, dimension_loop_trace 3 5 (by decide) (by decide)⟩

/-- C7: for `P = 2^D` (`D <= 30`, so that `P` fits an `int`), a dimension `1 <= d <= D` and
a rank `r < P`, every stage of dimension `d` on rank `r` has a partner `r XOR mask` that is
a rank below `P`, differs from `r`, addresses `r` back in its own stage of the same number
in dimension `d` with the same mask, and lies in the same aligned block of `2^d` ranks as
`r`. -/
theorem partner_involution (D d r : Nat) (hD : D ≤ 30) (h1 : 1 ≤ d) (hd : d ≤ D)
    (hr : r < 2 ^ D) :
    ∃ dim, dimension_of r (2 ^ D) d = some dim ∧ dim.max_stage = d ∧
      ∀ st ∈ dim.stages,
        st.partner = r ^^^ st.eor_bit ∧
        st.partner < 2 ^ D ∧
        st.partner ≠ r ∧
        (∃ st2, stage_of st.partner (2 ^ D) d st.stage = some st2 ∧
          st2.eor_bit = st.eor_bit ∧ st2.partner = r) ∧
        st.partner / 2 ^ d = r / 2 ^ d := by
  refine ⟨_, dimension_of_closed r D d hD h1 hd, by simp [dimension_at]; omega, ?_⟩
  intro st hst
  rw [stages_dimension_at r d h1] at hst
  obtain ⟨s, hs, rfl⟩ := List.mem_map.mp hst
  rw [List.mem_range] at hs
  simp only [stage_at_stage, stage_at_eor_bit, stage_at_partner]
  refine ⟨trivial, xor_mask_lt r _ D hr (by omega), xor_mask_ne r _, ?_,
    xor_mask_block r _ d (by omega)⟩
  refine ⟨_, stage_of_closed _ D d s hD h1 hd hs, stage_at_eor_bit _ d s, ?_⟩
  rw [stage_at_partner]
  exact Nat.xor_cancel_right _ _

theorem partner_involution_witness :
    ∃ dim, dimension_of 5 (2 ^ 3) 2 = some dim ∧ dim.max_stage = 2 ∧
      ∀ st ∈ dim.stages,
        st.partner = 5 ^^^ st.eor_bit ∧
        st.partner < 2 ^ 3 ∧
        st.partner ≠ 5 ∧
        (∃ st2, stage_of st.partner (2 ^ 3) 2 st.stage = some st2 ∧
          st2.eor_bit = st.eor_bit ∧ st2.partner = 5) ∧
        st.partner / 2 ^ 2 = 5 / 2 ^ 2 :=
  partner_involution 3 2 5 (by decide) (by decide) (by decide) (by decide)

/-- C10: for `P = 2^D` (`D <= 30`), a dimension `1 <= d <= D`, a rank `r < P` and every
stage of dimension `d` on rank `r`, with partner `q = r XOR mask`: `r` and `q` agree on
`(rank & (1 << d)) == 0` and so run the same phase; one of them calls `Merge_split_lo`
and the other `Merge_split_hi`; in the ascending phase the rank calling `Merge_split_lo`
is the lower of the two, in the descending phase the higher. -/
theorem partner_roles (D d r : Nat) (hD : D ≤ 30) (h1 : 1 ≤ d) (hd : d ≤ D)
    (hr : r < 2 ^ D) :
    ∃ dim, dimension_of r (2 ^ D) d = some dim ∧
      ∀ st ∈ dim.stages,
        st.partner = r ^^^ st.eor_bit ∧
        ∃ dim2 st2,
          dimension_of st.partner (2 ^ D) d = some dim2 ∧
          dim2.stages[st.stage]? = some st2 ∧
          st2.partner = r ∧
          (r &&& (1 <<< d) = 0 ↔ st.partner &&& (1 <<< d) = 0) ∧
          dim.phase = dim2.phase ∧
          ((st.role = Role.lo ∧ st2.role = Role.hi) ∨
            (st.role = Role.hi ∧ st2.role = Role.lo)) ∧
          (dim.phase = Phase.incr → (st.role = Role.lo ↔ r < st.partner)) ∧
          (dim.phase = Phase.decr → (st.role = Role.lo ↔ r > st.partner)) := by
  have _hrank := hr
  have hd1 : d - 1 + 1 = d := by omega
  refine ⟨_, dimension_of_closed r D d hD h1 hd, ?_⟩
  intro st hst
  rw [stages_dimension_at r d h1] at hst
  obtain ⟨s, hs, rfl⟩ := List.mem_map.mp hst
  rw [List.mem_range] at hs
  have hne : r ^^^ 2 ^ (d - 1 - s) ≠ r := xor_mask_ne r _
  have hback : r ^^^ 2 ^ (d - 1 - s) ^^^ 2 ^ (d - 1 - s) = r := Nat.xor_cancel_right _ _
  have hph := xor_mask_phase r (d - 1 - s) d (by omega)
  have hcmp : r < r ^^^ 2 ^ (d - 1 - s) ∨ r ^^^ 2 ^ (d - 1 - s) < r := by omega
  simp only [stage_at_stage, stage_at_eor_bit, stage_at_partner]
  refine ⟨trivial, _, stage_at (r ^^^ 2 ^ (d - 1 - s)) d s, dimension_of_closed _ D d hD h1 hd,
    ?_, ?_, ?_⟩
  · simp [stages_dimension_at _ d h1, List.getElem?_range hs]
  · rw [stage_at_partner]
    exact hback
  · by_cases hbit : r &&& 2 ^ d = 0
    · have hbit2 := hph.mpr hbit
      rcases hcmp with h | h
      · have h2 : ¬ (r ^^^ 2 ^ (d - 1 - s) < r) := by omega
        simp [dimension_at, stage_at, hd1, hbit, hbit2, Nat.one_shiftLeft, h, h2, hback]
      · have h2 : ¬ (r < r ^^^ 2 ^ (d - 1 - s)) := by omega
        simp [dimension_at, stage_at, hd1, hbit, hbit2, Nat.one_shiftLeft, h, h2, hback]
    · have hbit2 : ¬ ((r ^^^ 2 ^ (d - 1 - s)) &&& 2 ^ d = 0) := fun h => hbit (hph.mp h)
      rcases hcmp with h | h
      · have h2 : ¬ (r ^^^ 2 ^ (d - 1 - s) < r) := by omega
        simp [dimension_at, stage_at, hd1, hbit, hbit2, Nat.one_shiftLeft, h, h2, hback]
      · have h2 : ¬ (r < r ^^^ 2 ^ (d - 1 - s)) := by omega
        simp [dimension_at, stage_at, hd1, hbit, hbit2, Nat.one_shiftLeft, h, h2, hback]

theorem partner_roles_witness :
    ∃ dim, dimension_of 5 (2 ^ 3) 2 = some dim ∧
      ∀ st ∈ dim.stages,
        st.partner = 5 ^^^ st.eor_bit ∧
        ∃ dim2 st2,
          dimension_of st.partner (2 ^ 3) 2 = some dim2 ∧
          dim2.stages[st.stage]? = some st2 ∧
          st2.partner = 5 ∧
          (5 &&& (1 <<< 2) = 0 ↔ st.partner &&& (1 <<< 2) = 0) ∧
          dim.phase = dim2.phase ∧
          ((st.role = Role.lo ∧ st2.role = Role.hi) ∨
            (st.role = Role.hi ∧ st2.role = Role.lo)) ∧
          (dim.phase = Phase.incr → (st.role = Role.lo ↔ 5 < st.partner)) ∧
          (dim.phase = Phase.decr → (st.role = Role.lo ↔ 5 > st.partner)) :=
  partner_roles 3 2 5 (by decide) (by decide) (by decide) (by decide)

/-! ## Merge_split_lo computes the lower half -/

theorem rd_natCast (a : List Int) (i : Nat) : rd a (i : Int) = a[i]? := by
  simp [rd]

theorem wr_natCast (a : List Int) (k : Nat) (v : Int) (h : k < a.length) :
    wr a (k : Int) v = some (a.set k v) := by
  simp [wr, h]

theorem take_succ_set (m : List Int) (k : Nat) (v : Int) (h : k < m.length) :
    (m.set k v).take (k + 1) = m.take k ++ [v] := by
  induction m generalizing k with
  | nil => simp at h
  | cons x xs ih =>
    cases k with
    | zero => simp
    | succ k => simpa using ih k (by simpa using h)

theorem Merge_split_lo_loop_eq (A B : List Int) (n : Nat) (hA : A.length = n) (hB : B.length = n) :
    ∀ (fuel k i j : Nat) (M : List Int), i + j = k → k + fuel = n → M.length = n →
      Merge_split_lo_loop A B n fuel (k : Int) (i : Int) (j : Int) M
        = some (M.take k ++ take_merge fuel (A.drop i) (B.drop j)) := by
  intro fuel
  induction fuel with
  | zero =>
    intro k i j M _ hk hM
    have : k = n := by omega
    subst this
    simp [Merge_split_lo_loop, take_merge, ← hM]
  | succ f ih =>
    intro k i j M hij hk hM
    have hkn : (k : Int) < (n : Int) := by omega
    have hi : i < A.length := by omega
    have hj : j < B.length := by omega
    have hdA : A.drop i = A[i] :: A.drop (i + 1) := List.drop_eq_getElem_cons hi
    have hdB : B.drop j = B[j] :: B.drop (j + 1) := List.drop_eq_getElem_cons hj
    have hkM : k < M.length := by omega
    simp only [Merge_split_lo_loop, if_pos hkn, rd_natCast, List.getElem?_eq_getElem hi,
      List.getElem?_eq_getElem hj, hdA, hdB, take_merge]
    by_cases hle : A[i] ≤ B[j]
    · simp only [if_pos hle, wr_natCast M k _ hkM]
      have h := ih (k + 1) (i + 1) j (M.set k A[i]) (by omega) (by omega) (by simpa using hM)
      push_cast at h
      rw [h, take_succ_set M k _ hkM, hdB]
      simp
    · simp only [if_neg hle, wr_natCast M k _ hkM]
      have h := ih (k + 1) i (j + 1) (M.set k B[j]) (by omega) (by omega) (by simpa using hM)
      push_cast at h
      rw [h, take_succ_set M k _ hkM, hdA]
      simp

theorem insertionSort_of_perm_cons (l l2 : List Int) (x : Int) (hp : l.Perm (x :: l2))
    (hx : ∀ y ∈ l2, x ≤ y) :
    l.insertionSort (· ≤ ·) = x :: l2.insertionSort (· ≤ ·) := by
  apply List.eq_of_perm_of_sorted (r := (· ≤ ·))
  · exact (List.perm_insertionSort _ l).trans
      (hp.trans ((List.perm_insertionSort _ l2).symm.cons x))
  · exact List.sorted_insertionSort _ l
  · refine List.sorted_cons.mpr ⟨fun y hy => hx y ?_, List.sorted_insertionSort _ l2⟩
    exact (List.perm_insertionSort _ l2).subset hy

theorem take_merge_eq_take_sort : ∀ (c : Nat) (A B : List Int),
    A.Sorted (· ≤ ·) → B.Sorted (· ≤ ·) → c ≤ A.length → c ≤ B.length →
    take_merge c A B = ((A ++ B).insertionSort (· ≤ ·)).take c := by
  intro c
  induction c with
  | zero => intro A B _ _ _ _; simp [take_merge]
  | succ c ih =>
    intro A B sA sB hA hB
    match A, B, sA, sB, hA, hB with
    | [], _, _, _, hA, _ => simp at hA
    | _ :: _, [], _, _, _, hB => simp at hB
    | a :: as, b :: bs, sA, sB, hA, hB =>
      have hsA := List.sorted_cons.mp sA
      have hsB := List.sorted_cons.mp sB
      simp only [List.length_cons, Nat.add_le_add_iff_right] at hA hB
      by_cases hle : a ≤ b
      · have hall : ∀ y ∈ as ++ b :: bs, a ≤ y := by
          intro y hy
          rcases List.mem_append.mp hy with h | h
          · exact hsA.1 y h
          · rcases List.mem_cons.mp h with h | h
            · exact h ▸ hle
            · exact le_trans hle (hsB.1 y h)
        have hs := insertionSort_of_perm_cons ((a :: as) ++ b :: bs) (as ++ b :: bs) a
          (List.Perm.refl _) hall
        rw [hs, List.take_succ_cons, ← ih as (b :: bs) hsA.2 sB hA (by simp; omega)]
        simp [take_merge, hle]
      · have hlt : b ≤ a := le_of_lt (not_le.mp hle)
        have hall : ∀ y ∈ (a :: as) ++ bs, b ≤ y := by
          intro y hy
          rcases List.mem_append.mp hy with h | h
          · rcases List.mem_cons.mp h with h | h
            · exact h ▸ hlt
            · exact le_trans hlt (hsA.1 y h)
          · exact hsB.1 y h
        have hs := insertionSort_of_perm_cons ((a :: as) ++ b :: bs) ((a :: as) ++ bs) b
          List.perm_middle hall
        rw [hs, List.take_succ_cons, ← ih (a :: as) bs sA hsB.2 (by simp; omega) hB]
        simp [take_merge, hle]

/-- C2: for `local_n >= 1` and ascending `A` (own shard) and `B` (partner shard) of length
`local_n`, whatever the merge buffer holds, `Merge_split_lo` returns, leaves in `local_A`
the first `local_n` elements of the ascending sort of `A ++ B`, and leaves the partner
array unchanged. -/
theorem Merge_split_lo_lower_half (local_n : Nat) (A B M : List Int) (hn : 1 ≤ local_n)
    (hA : A.length = local_n) (hB : B.length = local_n) (hM : M.length = local_n)
    (sA : A.Sorted (· ≤ ·)) (sB : B.Sorted (· ≤ ·)) :
    ∃ out, Merge_split_lo A B M local_n = some out ∧
      out.local_A = ((A ++ B).insertionSort (· ≤ ·)).take local_n ∧
      out.local_partner = B := by
  have _hn := hn
  have hloop := Merge_split_lo_loop_eq A B local_n hA hB local_n 0 0 0 M rfl (by omega) hM
  have hspec := take_merge_eq_take_sort local_n A B sA sB (by omega) (by omega)
  have hlen : (take_merge local_n A B).length = local_n := by
    rw [hspec, List.length_take, List.length_insertionSort, List.length_append]
    omega
  simp only [Nat.cast_zero, List.take_zero, List.drop_zero, List.nil_append] at hloop
  have hcpy : memcpy A (take_merge local_n A B) local_n = some (take_merge local_n A B) := by
    have h1 : local_n ≤ A.length ∧ local_n ≤ (take_merge local_n A B).length := by
      constructor <;> omega
    rw [memcpy, if_pos h1, List.take_of_length_le (by omega), List.drop_of_length_le (by omega)]
    simp
  refine ⟨⟨take_merge local_n A B, B, take_merge local_n A B⟩, ?_, hspec, rfl⟩
  simp only [Merge_split_lo, hloop, hcpy]

theorem Merge_split_lo_lower_half_witness :
    ∃ out, Merge_split_lo [1, 3] [2, 4] [7, 7] 2 = some out ∧
      out.local_A = (([1, 3] ++ [2, 4] : List Int).insertionSort (· ≤ ·)).take 2 ∧
      out.local_partner = [2, 4] :=
  Merge_split_lo_lower_half 2 [1, 3] [2, 4] [7, 7] (by decide) rfl rfl rfl
    (by decide) (by decide)

/-! ## The local sort and the single-rank run -/

theorem Compare_le_zero_iff (a b : Int) : Compare a b ≤ 0 ↔ a ≤ b := by
  unfold Compare
  split_ifs <;> omega

theorem orderedInsert_Compare (a : Int) (l : List Int) :
    l.orderedInsert (fun x y => Compare x y ≤ 0) a = l.orderedInsert (· ≤ ·) a := by
  induction l with
  | nil => rfl
  | cons b l ih => simp [List.orderedInsert, Compare_le_zero_iff, ih]

theorem insertionSort_Compare (l : List Int) :
    l.insertionSort (fun x y => Compare x y ≤ 0) = l.insertionSort (· ≤ ·) := by
  induction l with
  | nil => rfl
  | cons b l ih => simp [List.insertionSort, ih, orderedInsert_Compare]

theorem qsort_Compare (A : List Int) (n : Nat) (h : A.length = n) :
    qsort A n Compare = some (A.insertionSort (· ≤ ·)) := by
  simp [qsort, h.symm, insertionSort_Compare]

/-- C5: with `p = 1` and `my_rank = 0`, for every `local_n` and every shard of `local_n`
integers, `Bitonic_sort` goes through no dimension (the dimension loop performs no
iteration, so no exchange and no merge happens and the scratch arrays keep their
contents) and `local_A` ends as the ascending sort of its input: a non-decreasing
permutation of the input. -/
theorem single_rank_is_local_sort (local_n : Nat) (A P M : List Int)
    (hA : A.length = local_n) :
    Bitonic_sort 0 1 = some [] ∧
    Bitonic_sort_all 1 local_n [⟨A, P, M⟩] = some [⟨A.insertionSort (· ≤ ·), P, M⟩] ∧
    (A.insertionSort (· ≤ ·)).Sorted (· ≤ ·) ∧
    (A.insertionSort (· ≤ ·)).Perm A := by
  have hdims : Bitonic_sort 0 1 = some [] := by decide
  refine ⟨hdims, ?_, List.sorted_insertionSort _ A, List.perm_insertionSort _ A⟩
  simp [Bitonic_sort_all, local_sort, qsort_Compare A local_n hA, hdims, rounds, lockstep,
    List.range_succ, each]

theorem single_rank_is_local_sort_witness :
    Bitonic_sort 0 1 = some [] ∧
    Bitonic_sort_all 1 3 [⟨[2, 3, 1], [9, 9, 9], [8, 8, 8]⟩]
      = some [⟨([2, 3, 1] : List Int).insertionSort (· ≤ ·), [9, 9, 9], [8, 8, 8]⟩] ∧
    (([2, 3, 1] : List Int).insertionSort (· ≤ ·)).Sorted (· ≤ ·) ∧
    (([2, 3, 1] : List Int).insertionSort (· ≤ ·)).Perm [2, 3, 1] :=
  single_rank_is_local_sort 3 [2, 3, 1] [9, 9, 9] [8, 8, 8] rfl

/-! ## Merge_split_hi and the runs that call it -/

/-- C3 (the code at a failing input): with own shard `[1,2,5]`, partner shard `[3,4,9]`
and any merge buffer `[m0,m1,m2]`, `Merge_split_hi` leaves `[m0,2,9]` in `local_A`, while
the last 3 elements of the ascending sort of the union are `[4,5,9]`: cell 0 of the merge
buffer is never written, and cell 1 receives `local_A[j]` instead of `local_A[i]`. -/
theorem Merge_split_hi_misses_upper_half (m0 m1 m2 : Int) :
    (Merge_split_hi [1, 2, 5] [3, 4, 9] [m0, m1, m2] 3).map Bufs.local_A = some [m0, 2, 9] ∧
    (([1, 2, 5] ++ [3, 4, 9] : List Int).insertionSort (· ≤ ·)).drop 3 = [4, 5, 9] ∧
    ([m0, 2, 9] : List Int) ≠ [4, 5, 9] :=
  ⟨rfl, by decide, by simp⟩

/-- C4 (the code at a failing input): for `A = [3,4,9]`, `B = [1,2,5]` and any merge
buffers, `Merge_split_lo` with own `A`, partner `B` gives `L = [1,2,3]` and
`Merge_split_hi` with own `B`, partner `A` gives `H = [m0,2,9]`; `L ++ H` is not a
permutation of `A ++ B` (2 occurs twice, 4 and 5 are lost) and the element 3 of `L`
exceeds the element 2 of `H`. -/
theorem merge_pair_not_a_split (k0 k1 k2 m0 m1 m2 : Int) :
    (Merge_split_lo [3, 4, 9] [1, 2, 5] [k0, k1, k2] 3).map Bufs.local_A = some [1, 2, 3] ∧
    (Merge_split_hi [1, 2, 5] [3, 4, 9] [m0, m1, m2] 3).map Bufs.local_A = some [m0, 2, 9] ∧
    ¬ List.Perm ([1, 2, 3] ++ [m0, 2, 9]) ([3, 4, 9] ++ [1, 2, 5]) ∧
    ¬ (∀ x ∈ ([1, 2, 3] : List Int), ∀ y ∈ ([m0, 2, 9] : List Int), x ≤ y) := by
  refine ⟨rfl, rfl, ?_, ?_⟩
  · intro h
    have h2 := h.count_eq 2
    by_cases hm : m0 = 2 <;> simp [List.count_cons, hm] at h2
  · intro h
    exact absurd (h 3 (by simp) 2 (by simp)) (by decide)

/-- C1 (the code at failing inputs): on the scenario `P = 4`, shards
`[3,1],[4,2],[8,6],[5,7]`, with zero-filled scratch arrays, the run of `Bitonic_sort` on
all ranks ends with the global sequence `[0,0,0,4,0,5,5,8]`, not `[1,2,3,4,5,6,7,8]`.
On `P = 2`, shards `[4,9,3],[5,1,2]`, the run ends with `[1,2,3,n0,2,9]` whatever the
scratch arrays hold (`n0` being cell 0 of rank 1's merge buffer), which is neither
non-decreasing nor a permutation of the input. -/
theorem Bitonic_sort_all_not_sorted (p0 p1 p2 m0 m1 m2 q0 q1 q2 n0 n1 n2 : Int) :
    (Bitonic_sort_all 4 2 [⟨[3, 1], [0, 0], [0, 0]⟩, ⟨[4, 2], [0, 0], [0, 0]⟩,
      ⟨[8, 6], [0, 0], [0, 0]⟩, ⟨[5, 7], [0, 0], [0, 0]⟩]).map global_sequence
      = some [0, 0, 0, 4, 0, 5, 5, 8] ∧
    (Bitonic_sort_all 2 3 [⟨[4, 9, 3], [p0, p1, p2], [m0, m1, m2]⟩,
      ⟨[5, 1, 2], [q0, q1, q2], [n0, n1, n2]⟩]).map global_sequence
      = some [1, 2, 3, n0, 2, 9] ∧
    ¬ List.Sorted (· ≤ ·) ([1, 2, 3, n0, 2, 9] : List Int) ∧
    ¬ List.Perm ([1, 2, 3, n0, 2, 9] : List Int) ([4, 9, 3] ++ [5, 1, 2]) := by
  refine ⟨by decide, rfl, ?_, ?_⟩
  · intro h
    have h3 := (List.sorted_cons.mp (List.sorted_cons.mp (List.sorted_cons.mp h).2).2).1
    have h4 := h3 2 (by simp)
    omega
  · intro h
    have h2 := h.count_eq 2
    by_cases hn : n0 = 2 <;> simp [List.count_cons, hn] at h2

/-- C6 (the code at a failing input): on `P = 2`, shards `[4,9,3],[5,1,2]`, after
dimension 1 the ranks 0 and 1 hold `[1,2,3]` and `[n0,2,9]` whatever the scratch arrays
hold.  Both ranks have `(rank & (1 << 1)) == 0`, so the block of `2^1` ranks is an
ascending one, but the concatenation by ascending rank is not non-decreasing. -/
theorem dimension_block_not_sorted (p0 p1 p2 m0 m1 m2 q0 q1 q2 n0 n1 n2 : Int) :
    (Bitonic_sort_dims 2 3 1 [⟨[4, 9, 3], [p0, p1, p2], [m0, m1, m2]⟩,
      ⟨[5, 1, 2], [q0, q1, q2], [n0, n1, n2]⟩]).map (List.map Bufs.local_A)
      = some [[1, 2, 3], [n0, 2, 9]] ∧
    (0 &&& (1 <<< 1) = 0 ∧ 1 &&& (1 <<< 1) = 0) ∧
    ¬ List.Sorted (· ≤ ·) ([1, 2, 3] ++ [n0, 2, 9] : List Int) := by
  refine ⟨rfl, by decide, ?_⟩
  intro h
  have h3 := (List.sorted_cons.mp (List.sorted_cons.mp (List.sorted_cons.mp h).2).2).1
  have h4 := h3 2 (by simp)
  omega

/-- C11 (the code at a failing input): with own shard `[2]`, partner shard `[1]` and
`local_n = 1` the loop of `Merge_split_hi` performs no iteration, so `local_A` ends as the
merge buffer's prior content: `[0]` for the merge buffer `[0]` and `[7]` for the merge
buffer `[7]`.  With own `[1,2,5]` and partner `[3,4,9]` the results for two merge buffers
agree only when the buffers agree in cell 0. -/
theorem Merge_split_hi_reads_stale_cell (m0 m1 m2 n0 n1 n2 : Int) :
    (Merge_split_hi [2] [1] [0] 1).map Bufs.local_A = some [0] ∧
    (Merge_split_hi [2] [1] [7] 1).map Bufs.local_A = some [7] ∧
    (Merge_split_hi [2] [1] [0] 1).map Bufs.local_A
      ≠ (Merge_split_hi [2] [1] [7] 1).map Bufs.local_A ∧
    ((Merge_split_hi [1, 2, 5] [3, 4, 9] [m0, m1, m2] 3).map Bufs.local_A
      = (Merge_split_hi [1, 2, 5] [3, 4, 9] [n0, n1, n2] 3).map Bufs.local_A ↔ m0 = n0) := by
  refine ⟨rfl, rfl, by decide, ?_⟩
  have h1 : (Merge_split_hi [1, 2, 5] [3, 4, 9] [m0, m1, m2] 3).map Bufs.local_A
      = some [m0, 2, 9] := rfl
  have h2 : (Merge_split_hi [1, 2, 5] [3, 4, 9] [n0, n1, n2] 3).map Bufs.local_A
      = some [n0, 2, 9] := rfl
  rw [h1, h2]
  simp

/-- C12 (the code at the claim's input): with own `[1,2,5]` and partner `[3,4,9]` the loop
of `Merge_split_hi` starts at `k = i = j = 2`, stores `local_partner[2] = 9` (the larger
tail) and goes on at `k = 1, i = 2, j = 1`.  There `local_A[2] = 5 >= local_partner[1] = 4`
and the loop stores `local_A[1] = 2` in `local_merge[1]`, not the larger tail
`max(5, 4) = 5 = local_A[2]`. -/
theorem Merge_split_hi_stores_wrong_cell (m0 m1 m2 : Int) :
    Merge_split_hi_loop [1, 2, 5] [3, 4, 9] 3 2 2 2 [m0, m1, m2]
      = Merge_split_hi_loop [1, 2, 5] [3, 4, 9] 2 1 2 1 [m0, m1, 9] ∧
    rd [1, 2, 5] 2 = some 5 ∧ rd [3, 4, 9] 1 = some 4 ∧ rd [1, 2, 5] 1 = some 2 ∧
    Merge_split_hi_loop [1, 2, 5] [3, 4, 9] 2 1 2 1 [m0, m1, 9] = some [m0, 2, 9] ∧
    ([m0, 2, 9] : List Int)[1]? ≠ some (max 5 4) :=
  ⟨rfl, rfl, rfl, rfl, rfl, by simp⟩

/-! ## The scenario with four ranks -/

/-- C13 (counterexample): on `P = 4`, shards `[3,1],[4,2],[8,6],[5,7]`, zero-filled scratch
arrays, the shards after the local sort and dimension 1 are `[1,2],[0,4],[0,8],[5,6]`,
not `[1,3],[2,4],[6,8],[5,7]`. -/
theorem scenario_dimension_one_counterexample :
    (Bitonic_sort_dims 4 2 1 [⟨[3, 1], [0, 0], [0, 0]⟩, ⟨[4, 2], [0, 0], [0, 0]⟩,
      ⟨[8, 6], [0, 0], [0, 0]⟩, ⟨[5, 7], [0, 0], [0, 0]⟩]).map (List.map Bufs.local_A)
      = some [[1, 2], [0, 4], [0, 8], [5, 6]] ∧
    ¬ ((Bitonic_sort_dims 4 2 1 [⟨[3, 1], [0, 0], [0, 0]⟩, ⟨[4, 2], [0, 0], [0, 0]⟩,
      ⟨[8, 6], [0, 0], [0, 0]⟩, ⟨[5, 7], [0, 0], [0, 0]⟩]).map (List.map Bufs.local_A)
      = some [[1, 3], [2, 4], [6, 8], [5, 7]]) := by
  decide

/-- C13 (amended): on `P = 4`, shards `[3,1],[4,2],[8,6],[5,7]`, for every content of the
scratch arrays, the shards after the local sort alone are `[1,3],[2,4],[6,8],[5,7]`, and
after the local sort and dimension 1 rank 0 holds `[1,2]` and rank 3 holds `[5,6]` (the
two ranks that take the low half of the pairs (0,1) and (2,3)). -/
theorem scenario_dimension_one_low_halves
    (a0 a1 a2 a3 b0 b1 b2 b3 c0 c1 c2 c3 d0 d1 d2 d3 : Int) :
    (Bitonic_sort_dims 4 2 0 [⟨[3, 1], [a0, a1], [a2, a3]⟩, ⟨[4, 2], [b0, b1], [b2, b3]⟩,
      ⟨[8, 6], [c0, c1], [c2, c3]⟩, ⟨[5, 7], [d0, d1], [d2, d3]⟩]).map (List.map Bufs.local_A)
      = some [[1, 3], [2, 4], [6, 8], [5, 7]] ∧
    ∃ w, Bitonic_sort_dims 4 2 1 [⟨[3, 1], [a0, a1], [a2, a3]⟩, ⟨[4, 2], [b0, b1], [b2, b3]⟩,
      ⟨[8, 6], [c0, c1], [c2, c3]⟩, ⟨[5, 7], [d0, d1], [d2, d3]⟩] = some w ∧
      w.length = 4 ∧
      w[0]?.map Bufs.local_A = some [1, 2] ∧
      w[3]?.map Bufs.local_A = some [5, 6] :=
  ⟨rfl, _, rfl, rfl, rfl, rfl⟩

/-! ## Array bounds of the two merges -/

theorem take_merge_length : ∀ (c : Nat) (A B : List Int), c ≤ A.length → c ≤ B.length →
    (take_merge c A B).length = c := by
  intro c
  induction c with
  | zero => intro A B _ _; simp [take_merge]
  | succ c ih =>
    intro A B hA hB
    match A, B, hA, hB with
    | [], _, hA, _ => simp at hA
    | _ :: _, [], _, hB => simp at hB
    | a :: as, b :: bs, hA, hB =>
      simp only [List.length_cons, Nat.add_le_add_iff_right] at hA hB
      by_cases hle : a ≤ b
      · simp [take_merge, hle, ih as (b :: bs) hA (by simp; omega)]
      · simp [take_merge, hle, ih (a :: as) bs (by simp; omega) hB]

theorem Merge_split_hi_loop_some (A B : List Int) (n : Nat) (hA : A.length = n)
    (hB : B.length = n) :
    ∀ (fuel k i j : Nat) (M : List Int), k ≤ fuel → k ≤ i → k ≤ j → i < n → j < n →
      M.length = n →
      ∃ M2, Merge_split_hi_loop A B fuel (k : Int) (i : Int) (j : Int) M = some M2 ∧
        M2.length = n := by
  intro fuel
  induction fuel with
  | zero =>
    intro k i j M hk _ _ _ _ hM
    have : k = 0 := by omega
    subst this
    exact ⟨M, by simp [Merge_split_hi_loop], hM⟩
  | succ f ih =>
    intro k i j M hk hki hkj hi hj hM
    by_cases hk0 : k = 0
    · subst hk0
      exact ⟨M, by simp [Merge_split_hi_loop], hM⟩
    · have hkpos : (k : Int) > 0 := by omega
      have hiA : i < A.length := by omega
      have hjB : j < B.length := by omega
      have hjA : j < A.length := by omega
      have hkM : k < M.length := by omega
      have hk1 : (k : Int) - 1 = ((k - 1 : Nat) : Int) := by omega
      have hi1 : (i : Int) - 1 = ((i - 1 : Nat) : Int) := by omega
      have hj1 : (j : Int) - 1 = ((j - 1 : Nat) : Int) := by omega
      simp only [Merge_split_hi_loop, if_pos hkpos, rd_natCast, List.getElem?_eq_getElem hiA,
        List.getElem?_eq_getElem hjB, List.getElem?_eq_getElem hjA]
      by_cases hge : A[i] ≥ B[j]
      · simp only [if_pos hge, wr_natCast M k _ hkM, hk1, hi1]
        exact ih (k - 1) (i - 1) j _ (by omega) (by omega) (by omega) (by omega) hj
          (by simpa using hM)
      · simp only [if_neg hge, wr_natCast M k _ hkM, hk1, hj1]
        exact ih (k - 1) i (j - 1) _ (by omega) (by omega) (by omega) hi (by omega)
          (by simpa using hM)

/-- C15: for every `local_n >= 0` and all own, partner and merge arrays of `local_n` cells,
sorted or not, `Merge_split_lo` and `Merge_split_hi` both return: no read of `local_A` or
`local_partner` and no write of `local_merge` falls outside `[0, local_n)`, since the
bounds-checked accesses `rd` and `wr` never yield `none`.  The arrays keep their length. -/
theorem merges_stay_in_bounds (local_n : Nat) (A B M : List Int)
    (hA : A.length = local_n) (hB : B.length = local_n) (hM : M.length = local_n) :
    (∃ out, Merge_split_lo A B M local_n = some out ∧
      out.local_A.length = local_n ∧ out.local_merge.length = local_n) ∧
    (∃ out, Merge_split_hi A B M local_n = some out ∧
      out.local_A.length = local_n ∧ out.local_merge.length = local_n) := by
  constructor
  · have hloop := Merge_split_lo_loop_eq A B local_n hA hB local_n 0 0 0 M rfl (by omega) hM
    have hlen : (take_merge local_n A B).length = local_n :=
      take_merge_length local_n A B (by omega) (by omega)
    simp only [Nat.cast_zero, List.take_zero, List.drop_zero, List.nil_append] at hloop
    have h1 : local_n ≤ A.length ∧ local_n ≤ (take_merge local_n A B).length := by
      constructor <;> omega
    refine ⟨⟨(take_merge local_n A B).take local_n ++ A.drop local_n, B,
      take_merge local_n A B⟩, ?_, ?_, hlen⟩
    · simp only [Merge_split_lo, hloop, memcpy, if_pos h1]
    · simp [hlen, hA]
  · have hsome : ∃ M2, Merge_split_hi_loop A B local_n ((local_n : Int) - 1)
        ((local_n : Int) - 1) ((local_n : Int) - 1) M = some M2 ∧ M2.length = local_n := by
      cases local_n with
      | zero => exact ⟨M, by simp [Merge_split_hi_loop], hM⟩
      | succ n =>
        have hc : (((n + 1 : Nat) : Int) - 1) = (n : Int) := by push_cast; omega
        rw [hc]
        exact Merge_split_hi_loop_some A B (n + 1) hA hB (n + 1) n n n M (by omega)
          (by omega) (by omega) (by omega) (by omega) hM
    obtain ⟨M2, hM2, hlen⟩ := hsome
    have h1 : local_n ≤ A.length ∧ local_n ≤ M2.length := by constructor <;> omega
    refine ⟨⟨M2.take local_n ++ A.drop local_n, B, M2⟩, ?_, ?_, hlen⟩
    · simp only [Merge_split_hi, hM2, memcpy, if_pos h1]
    · simp [hlen, hA]

theorem merges_stay_in_bounds_witness :
    (∃ out, Merge_split_lo [5, 1, 3] [2, 9, 0] [7, 7, 7] 3 = some out ∧
      out.local_A.length = 3 ∧ out.local_merge.length = 3) ∧
    (∃ out, Merge_split_hi [5, 1, 3] [2, 9, 0] [7, 7, 7] 3 = some out ∧
      out.local_A.length = 3 ∧ out.local_merge.length = 3) :=
  merges_stay_in_bounds 3 [5, 1, 3] [2, 9, 0] [7, 7, 7] rfl rfl rfl

/-! ## Compare as an order -/

/-- C16: for all 32-bit `int` values `a` and `b`, `Compare` returns `-1` when `a < b`, `0`
when `a = b` and `1` when `a > b` (it only compares, so nothing can overflow); hence
`Compare a b = -Compare b a`, `Compare a b <= 0` is the usual order `a <= b`, and the local
sort `qsort(local_A, local_n, sizeof(int), Compare)` leaves an ascending permutation of
the shard. -/
theorem Compare_is_total_order (a b : Int) (A : List Int) (local_n : Nat)
    (ha : -2 ^ 31 ≤ a ∧ a < 2 ^ 31) (hb : -2 ^ 31 ≤ b ∧ b < 2 ^ 31)
    (hA : A.length = local_n) :
    (a < b → Compare a b = -1) ∧ (a = b → Compare a b = 0) ∧ (a > b → Compare a b = 1) ∧
    Compare a b = -Compare b a ∧
    (Compare a b ≤ 0 ↔ a ≤ b) ∧
    ∃ sorted, qsort A local_n Compare = some sorted ∧
      sorted.Sorted (· ≤ ·) ∧ sorted.Perm A := by
  have _ha := ha
  have _hb := hb
  refine ⟨?_, ?_, ?_, ?_, Compare_le_zero_iff a b, _, qsort_Compare A local_n hA,
    List.sorted_insertionSort _ A, List.perm_insertionSort _ A⟩
  · intro h
    simp [Compare, h]
  · intro h
    simp [Compare, h]
  · intro h
    have h1 : ¬ a < b := by omega
    have h2 : ¬ a = b := by omega
    simp [Compare, h1, h2]
  · unfold Compare
    split_ifs <;> omega

theorem Compare_is_total_order_witness :
    ((3 : Int) < 7 → Compare 3 7 = -1) ∧ ((3 : Int) = 7 → Compare 3 7 = 0) ∧
    ((3 : Int) > 7 → Compare 3 7 = 1) ∧
    Compare 3 7 = -Compare 7 3 ∧
    (Compare 3 7 ≤ 0 ↔ (3 : Int) ≤ 7) ∧
    ∃ sorted, qsort [2, 3, 1] 3 Compare = some sorted ∧
      sorted.Sorted (· ≤ ·) ∧ sorted.Perm [2, 3, 1] :=
  Compare_is_total_order 3 7 [2, 3, 1] 3 (by decide) (by decide) rfl

/-! ## Directions of neighbouring blocks -/

theorem rank_and_size (r D : Nat) (hr : r < 2 ^ D) : r &&& 2 ^ D = 0 :=
  (and_two_pow_eq_zero r D).mpr (Nat.testBit_lt_two_pow hr)

theorem xor_bit_flips_phase (r d : Nat) :
    (r ^^^ 2 ^ d) &&& 2 ^ d = 0 ↔ ¬ (r &&& 2 ^ d = 0) := by
  rw [and_two_pow_eq_zero, and_two_pow_eq_zero]
  simp [Nat.testBit_xor, Nat.testBit_two_pow_self]

theorem and_two_pow_eq_zero_iff_even_block (r d : Nat) :
    r &&& 2 ^ d = 0 ↔ r / 2 ^ d % 2 = 0 := by
  rw [and_two_pow_eq_zero, Nat.testBit_to_div_mod]
  have := Nat.mod_two_eq_zero_or_one (r / 2 ^ d)
  simp only [decide_eq_false_iff_not]
  omega

/-- C14: for `P = 2^D` with `1 <= D <= 30` and a rank `r < P`: in the last dimension `D`
the rank has `(r & P) == 0` and runs the ascending phase; in every earlier dimension
`1 <= d < D` the ranks `r` and `r XOR 2^d` (a rank below `P`, in the same aligned block
of `2^(d+1)` ranks) run opposite phases, the ascending one being run by the rank in the
lower block of `2^d` ranks (`r / 2^d` even) and the descending one by the rank in the
upper block (`r / 2^d` odd). -/
theorem neighbour_blocks_alternate (D r : Nat) (hD1 : 1 ≤ D) (hD : D ≤ 30) (hr : r < 2 ^ D) :
    (r &&& 2 ^ D = 0 ∧
      ∃ dim, dimension_of r (2 ^ D) D = some dim ∧ dim.phase = Phase.incr) ∧
    ∀ d, 1 ≤ d → d < D →
      ∃ dim dim2,
        dimension_of r (2 ^ D) d = some dim ∧
        dimension_of (r ^^^ 2 ^ d) (2 ^ D) d = some dim2 ∧
        r ^^^ 2 ^ d < 2 ^ D ∧
        (r ^^^ 2 ^ d) / 2 ^ (d + 1) = r / 2 ^ (d + 1) ∧
        dim.phase ≠ dim2.phase ∧
        (dim.phase = Phase.incr ↔ r / 2 ^ d % 2 = 0) ∧
        (dim.phase = Phase.decr ↔ r / 2 ^ d % 2 = 1) := by
  constructor
  · have h0 := rank_and_size r D hr
    have hd1 : D - 1 + 1 = D := by omega
    exact ⟨h0, _, dimension_of_closed r D D hD hD1 (le_refl D), by
      simp [dimension_at, hd1, h0]⟩
  · intro d h1 hdD
    have hd1 : d - 1 + 1 = d := by omega
    have hflip := xor_bit_flips_phase r d
    have hpar := and_two_pow_eq_zero_iff_even_block r d
    have hmod := Nat.mod_two_eq_zero_or_one (r / 2 ^ d)
    refine ⟨_, _, dimension_of_closed r D d hD h1 (by omega),
      dimension_of_closed _ D d hD h1 (by omega), xor_mask_lt r d D hr hdD,
      xor_mask_block r d (d + 1) (by omega), ?_⟩
    by_cases hbit : r &&& 2 ^ d = 0
    · have hbit2 : ¬ ((r ^^^ 2 ^ d) &&& 2 ^ d = 0) := fun h => (hflip.mp h) hbit
      have hz : r / 2 ^ d % 2 = 0 := hpar.mp hbit
      simp [dimension_at, hd1, hbit, hbit2, hz]
    · have hbit2 : (r ^^^ 2 ^ d) &&& 2 ^ d = 0 := hflip.mpr hbit
      have hz : r / 2 ^ d % 2 = 1 := by
        rcases hmod with h | h
        · exact absurd (hpar.mpr h) hbit
        · exact h
      simp [dimension_at, hd1, hbit, hbit2, hz]

theorem neighbour_blocks_alternate_witness :
    (5 &&& 2 ^ 3 = 0 ∧
      ∃ dim, dimension_of 5 (2 ^ 3) 3 = some dim ∧ dim.phase = Phase.incr) ∧
    ∀ d, 1 ≤ d → d < 3 →
      ∃ dim dim2,
        dimension_of 5 (2 ^ 3) d = some dim ∧
        dimension_of (5 ^^^ 2 ^ d) (2 ^ 3) d = some dim2 ∧
        5 ^^^ 2 ^ d < 2 ^ 3 ∧
        (5 ^^^ 2 ^ d) / 2 ^ (d + 1) = 5 / 2 ^ (d + 1) ∧
        dim.phase ≠ dim2.phase ∧
        (dim.phase = Phase.incr ↔ 5 / 2 ^ d % 2 = 0) ∧
        (dim.phase = Phase.decr ↔ 5 / 2 ^ d % 2 = 1) :=
  neighbour_blocks_alternate 3 5 (by decide) (by decide) (by decide)

end BitonicSort
